import Mathlib

/-!
Verification of the sanitization transform of `claude-clear`
(`src/cleaner.py`, function `clean_claude_json`).

The configuration document is a JSON value tree.  Python dictionaries are
modelled as association lists `List (String × Json)` in insertion order;
since Python dictionaries never hold duplicate keys, the update operation
rewrites every occurrence of a key (which coincides with replacement of the
unique occurrence on well-formed inputs), and lookup reads the first
occurrence.  JSON numbers are modelled as integers, which is what the tool
ever encounters in the fields it measures; serialization size is the length
of a `json.dumps`-style rendering with `, ` and `: ` separators.
-/

set_option autoImplicit false

/-- JSON value tree (`json.load` result).  Objects keep insertion order. -/
inductive Json where
  | null
  | bool (b : Bool)
  | num (n : Int)
  | str (s : String)
  | arr (xs : List Json)
  | obj (fs : List (String × Json))
deriving Repr, Inhabited, BEq

/-- Lookup of `d[key]` / the `key in d` test: first occurrence wins. -/
def objGet : List (String × Json) → String → Option Json
  | [], _ => none
  | (k, v) :: rest, key => if k = key then some v else objGet rest key

/-- Assignment `d[key] = val` to a present key: every occurrence of the key
is rewritten (Python dictionaries hold each key once, so this coincides with
updating the unique occurrence in place). -/
def objSet : List (String × Json) → String → Json → List (String × Json)
  | [], _, _ => []
  | (k, v) :: rest, key, val =>
    if k = key then (k, val) :: objSet rest key val
    else (k, v) :: objSet rest key val

/-- Deletion `del d[key]`. -/
def objErase : List (String × Json) → String → List (String × Json)
  | [], _ => []
  | (k, v) :: rest, key =>
    if k = key then objErase rest key else (k, v) :: objErase rest key

/-- Python truthiness of a JSON value (`if project[field]:`):
`None`, `False`, `0`, `""`, `[]` and an empty mapping are falsy. -/
def truthy : Json → Bool
  | Json.null => false
  | Json.bool b => b
  | Json.num n => n != 0
  | Json.str s => s ≠ ""
  | Json.arr xs => ¬xs.isEmpty
  | Json.obj fs => ¬fs.isEmpty

/-- Lower-case hexadecimal digit, also used as the decimal digit printer. -/
def hexDigit (n : Nat) : Char :=
  if n < 10 then Char.ofNat (48 + n) else Char.ofNat (87 + n)

/-- Decimal digits of a natural number, most significant first, with
explicit fuel (the fuel is structurally decreasing, and `n + 1` steps are
always enough). -/
def natReprCore : Nat → Nat → List Char → List Char
  | 0, _, acc => acc
  | fuel + 1, n, acc =>
    if n = 0 then acc
    else natReprCore fuel (n / 10) (hexDigit (n % 10) :: acc)

/-- Decimal rendering of a natural number (`str(n)` in Python). -/
def natRepr (n : Nat) : String :=
  if n = 0 then "0" else String.mk (natReprCore (n + 1) n [])

/-- Decimal rendering of an integer (`str(n)` in Python). -/
def intRepr : Int → String
  | Int.ofNat m => natRepr m
  | Int.negSucc m => "-" ++ natRepr (m + 1)

/-- Four-hex-digit `\uXXXX` escape used by `json.dumps` (`ensure_ascii`). -/
def uEsc4 (n : Nat) : String :=
  "\\u" ++ String.mk
    [hexDigit (n / 4096 % 16), hexDigit (n / 256 % 16),
     hexDigit (n / 16 % 16), hexDigit (n % 16)]

/-- Escape of a single character inside a JSON string literal, matching
`json.dumps` with its default `ensure_ascii=True`. -/
def escChar (c : Char) : String :=
  if c = '"' then "\\\""
  else if c = '\\' then "\\\\"
  else if c = '\n' then "\\n"
  else if c = '\t' then "\\t"
  else if c = '\r' then "\\r"
  else if c.toNat = 8 then "\\b"
  else if c.toNat = 12 then "\\f"
  else if 32 ≤ c.toNat ∧ c.toNat ≤ 126 then String.singleton c
  else if c.toNat < 65536 then uEsc4 c.toNat
  else uEsc4 (55296 + (c.toNat - 65536) / 1024) ++ uEsc4 (56320 + (c.toNat - 65536) % 1024)

/-- Escape of a character list. -/
def escList : List Char → String
  | [] => ""
  | c :: cs => escChar c ++ escList cs

/-- JSON string literal rendering (`json.dumps` of a string). -/
def dumpStr (s : String) : String :=
  "\"" ++ escList s.data ++ "\""

mutual

/-- Compact rendering of a JSON value, as `json.dumps(v)` produces it with
the default separators `, ` and `: `; only its length is ever used. -/
def dumps : Json → String
  | Json.null => "null"
  | Json.bool b => if b then "true" else "false"
  | Json.num n => intRepr n
  | Json.str s => dumpStr s
  | Json.arr [] => "[]"
  | Json.arr (x :: xs) => "[" ++ dumps x ++ dumpsArrRest xs ++ "]"
  | Json.obj [] => "\x7b\x7d"
  | Json.obj ((k, v) :: kvs) =>
    "\x7b" ++ dumpStr k ++ ": " ++ dumps v ++ dumpsObjRest kvs ++ "\x7d"

/-- Remaining array items, each preceded by the item separator. -/
def dumpsArrRest : List Json → String
  | [] => ""
  | x :: xs => ", " ++ dumps x ++ dumpsArrRest xs

/-- Remaining object items, each preceded by the item separator. -/
def dumpsObjRest : List (String × Json) → String
  | [] => ""
  | (k, v) :: kvs => ", " ++ dumpStr k ++ ": " ++ dumps v ++ dumpsObjRest kvs

end

/-- Indentation padding. -/
def pad (n : Nat) : String :=
  String.mk (List.replicate n ' ')

mutual

/-- Pretty rendering with two-space indentation, as
`json.dump(v, f, indent=2)` writes it; only its length is ever used. -/
def dumpsInd (ind : Nat) : Json → String
  | Json.arr [] => "[]"
  | Json.obj [] => "\x7b\x7d"
  | Json.arr (x :: xs) =>
    "[\n" ++ pad (ind + 2) ++ dumpsInd (ind + 2) x ++
      dumpsIndArrRest (ind + 2) xs ++ "\n" ++ pad ind ++ "]"
  | Json.obj ((k, v) :: kvs) =>
    "\x7b\n" ++ pad (ind + 2) ++ dumpStr k ++ ": " ++ dumpsInd (ind + 2) v ++
      dumpsIndObjRest (ind + 2) kvs ++ "\n" ++ pad ind ++ "\x7d"
  | v => dumps v

/-- Remaining array items of the pretty rendering. -/
def dumpsIndArrRest (ind : Nat) : List Json → String
  | [] => ""
  | x :: xs => ",\n" ++ pad ind ++ dumpsInd ind x ++ dumpsIndArrRest ind xs

/-- Remaining object items of the pretty rendering. -/
def dumpsIndObjRest (ind : Nat) : List (String × Json) → String
  | [] => ""
  | (k, v) :: kvs =>
    ",\n" ++ pad ind ++ dumpStr k ++ ": " ++ dumpsInd ind v ++ dumpsIndObjRest ind kvs

end

/-- The project-scope clearable chat fields, in source order
(`chat_fields`, cleaner.py lines 125-128). -/
def projTargetFields : List String :=
  ["conversation", "messages", "chat", "conversations",
   "messageHistory", "chatHistory", "contextCache"]

/-- The document-scope clearable chat fields, in source order
(`top_fields`, cleaner.py lines 145-148). -/
def topTargetFields : List String :=
  ["globalHistory", "globalMessages", "conversations",
   "recentConversations", "conversationCache", "chatCache"]

/-- The counters accumulated by the run: `projects_cleaned`, `top_cleared`
and `history_size_total` of cleaner.py. -/
structure Report where
  projectsWithHistoryCleared : Nat
  topLevelFieldsCleared : Nat
  estimatedBytesFreed : Nat
deriving Repr, DecidableEq

/-- Type-aware clearing of one present field (cleaner.py lines 137-142 and
159-164): a list value becomes `[]`, a mapping becomes an empty mapping,
anything else has its key deleted. -/
def clearField (fs : List (String × Json)) (field : String) : List (String × Json) :=
  match objGet fs field with
  | some (Json.arr _) => objSet fs field (Json.arr [])
  | some (Json.obj _) => objSet fs field (Json.obj [])
  | some _ => objErase fs field
  | none => fs

/-- Handling of one clearable chat field at either scope (cleaner.py lines
130-142 at project scope, 151-164 at document scope): if the field is
present and truthy, its serialized size is measured and, when that size is
positive, the field is counted, the size added, and — outside dry run —
the field cleared.  Returns the updated mapping, whether the field was
counted, and the size added. -/
def processField (dryRun : Bool) (q : List (String × Json)) (field : String) :
    List (String × Json) × Bool × Nat :=
  match objGet q field with
  | some v =>
    if truthy v then
      let sz := (dumps v).length
      if 0 < sz then ((if dryRun then q else clearField q field), true, sz)
      else (q, false, 0)
    else (q, false, 0)
  | none => (q, false, 0)

/-- Handling of a project's `history` field (cleaner.py lines 110-122): if
present and truthy it is counted, its serialized size added and — outside
dry run — it is replaced by the empty array, whatever its type was. -/
def historyStep (dryRun : Bool) (p : List (String × Json)) :
    List (String × Json) × Bool × Nat :=
  match objGet p "history" with
  | some v =>
    if truthy v then
      ((if dryRun then p else objSet p "history" (Json.arr [])), true, (dumps v).length)
    else (p, false, 0)
  | none => (p, false, 0)

/-- One step of the project-scope chat-field loop (cleaner.py lines
130-142): the loop accumulates only the mapping and the byte total. -/
def chatStep (dryRun : Bool) (acc : List (String × Json) × Nat) (field : String) :
    List (String × Json) × Nat :=
  let s := processField dryRun acc.1 field
  (s.1, acc.2 + s.2.2)

/-- One step of the document-scope loop (cleaner.py lines 151-164): it
additionally counts cleared fields (`top_cleared`). -/
def topStep (dryRun : Bool) (acc : List (String × Json) × Nat × Nat) (field : String) :
    List (String × Json) × Nat × Nat :=
  let s := processField dryRun acc.1 field
  (s.1, acc.2.1 + (if s.2.1 then 1 else 0), acc.2.2 + s.2.2)

/-- Processing of one project entry (cleaner.py lines 103-142): the
`history` step followed by the chat-field loop.  Returns the updated entry,
whether `projects_cleaned` was incremented, and the bytes added. -/
def cleanProject (dryRun : Bool) (p : List (String × Json)) :
    List (String × Json) × Bool × Nat :=
  let h := historyStep dryRun p
  let r := projTargetFields.foldl (chatStep dryRun) (h.1, 0)
  (r.1, h.2.1, h.2.2 + r.2)

/-- Processing of one entry of the `projects` mapping (cleaner.py lines
103-105): non-mapping entries are skipped (`continue`). -/
def cleanEntry (dryRun : Bool) (kv : String × Json) : (String × Json) × Nat × Nat :=
  match kv.2 with
  | Json.obj p =>
    let r := cleanProject dryRun p
    ((kv.1, Json.obj r.1), (if r.2.1 then 1 else 0), r.2.2)
  | _ => (kv, 0, 0)

/-- The sanitization transform on a root mapping (cleaner.py lines
96-164): the `projects` traversal when `projects` is present and is a
mapping, then the document-scope loop, accumulating the report. -/
def cleanDoc (dryRun : Bool) (d : List (String × Json)) :
    List (String × Json) × Report :=
  let pr : List (String × Json) × Nat × Nat :=
    match objGet d "projects" with
    | some (Json.obj projs) =>
      let cleaned : List ((String × Json) × Nat × Nat) := projs.map (cleanEntry dryRun)
      ((if dryRun then d else objSet d "projects" (Json.obj (cleaned.map (·.1)))),
       (cleaned.map (·.2.1)).sum,
       (cleaned.map (·.2.2)).sum)
    | _ => (d, 0, 0)
  let t := topTargetFields.foldl (topStep dryRun) (pr.1, 0, pr.2.2)
  (t.1, ⟨pr.2.1, t.2.1, t.2.2⟩)

/-- The transform on an arbitrary parsed root.  The claims quantify over
ConfigurationDocuments, which are root mappings (spec section 3); a
non-mapping root has no string-keyed fields, so the membership tests of
cleaner.py lines 102 and 152 select nothing and the value is kept. -/
def cleanDocRoot (dryRun : Bool) : Json → Json × Report
  | Json.obj d => let r := cleanDoc dryRun d; (Json.obj r.1, r.2)
  | v => (v, ⟨0, 0, 0⟩)

/-- Spec-side formula (spec section 3, SanitizationReport): the serialized
size of a field's value when the field is present and truthy, else zero.
Stated from the spec's words to compare the code's accumulator against. -/
def freedAt (q : List (String × Json)) (f : String) : Nat :=
  match objGet q f with
  | some v => if truthy v then (dumps v).length else 0
  | none => 0

/-- A file on disk: its byte size as reported by `stat`, and the result of
`json.load` on it (`none` when the bytes are not valid JSON). -/
structure DiskFile where
  size : Nat
  parsed : Option Json

/-- The two paths the tool touches: `~/.claude.json` and the timestamped
backup path (`none` = the path does not exist). -/
structure SysState where
  file : Option DiskFile
  backup : Option DiskFile

/-- What one invocation yields: the boolean result of `clean_claude_json`,
the report it printed (`none` when it aborted before sanitizing), and the
state of the two paths afterwards. -/
structure RunOutcome where
  ok : Bool
  report : Option Report
  post : SysState

/-- The whole of `clean_claude_json` (cleaner.py lines 43-193).  `confirm`
is the injected yes/no answer to the `Clean anyway? (y/N)` prompt, which
the source consults only when the file is below 100 KiB and the run is not
a dry run.  In a real run the source parses, writes the backup, sanitizes,
and overwrites the original with the pretty rendering; a parse failure
returns `False` before the backup is written. -/
def runClean (dryRun confirm : Bool) (st : SysState) : RunOutcome :=
  match st.file with
  | none => ⟨false, none, st⟩
  | some f =>
    if f.size < 1024 * 100 ∧ dryRun = false ∧ confirm = false then ⟨false, none, st⟩
    else
      match f.parsed with
      | none => ⟨false, none, st⟩
      | some data =>
        let r := cleanDocRoot dryRun data
        if dryRun then ⟨true, some r.2, st⟩
        else
          ⟨true, some r.2,
           ⟨some ⟨(dumpsInd 0 r.1).length, some r.1⟩,
            some ⟨(dumpsInd 0 data).length, some data⟩⟩⟩

/-- Every pair of the mapping carrying this key carries this value. -/
def keyAll (fs : List (String × Json)) (k : String) (v : Json) : Prop :=
  ∀ q ∈ fs, q.1 = k → q.2 = v

/-- The field, when present, holds a falsy value, so the transform leaves
it alone. -/
def inertAt (q : List (String × Json)) (f : String) : Prop :=
  ∀ v, objGet q f = some v → truthy v = false

theorem objGet_objSet_self {fs : List (String × Json)} {k : String} {w v : Json}
    (h : objGet fs k = some w) : objGet (objSet fs k v) k = some v := by
  induction fs with
  | nil => simp [objGet] at h
  | cons a rest ih =>
    obtain ⟨ak, av⟩ := a
    by_cases hk : ak = k <;> simp [objGet, objSet, hk] at h ⊢
    exact ih h

theorem objGet_objSet_ne {fs : List (String × Json)} {k k2 : String} {v : Json}
    (h : k2 ≠ k) : objGet (objSet fs k v) k2 = objGet fs k2 := by
  induction fs with
  | nil => simp [objSet]
  | cons a rest ih =>
    obtain ⟨ak, av⟩ := a
    by_cases hk : ak = k
    · subst hk
      simp [objSet, objGet, Ne.symm h, ih]
    · by_cases hk2 : ak = k2 <;> simp [objSet, objGet, hk, hk2, ih, h]

theorem objGet_objErase_self {fs : List (String × Json)} {k : String} :
    objGet (objErase fs k) k = none := by
  induction fs with
  | nil => simp [objErase, objGet]
  | cons a rest ih =>
    obtain ⟨ak, av⟩ := a
    by_cases hk : ak = k <;> simp [objErase, objGet, hk, ih]

theorem objGet_objErase_ne {fs : List (String × Json)} {k k2 : String}
    (h : k2 ≠ k) : objGet (objErase fs k) k2 = objGet fs k2 := by
  induction fs with
  | nil => simp [objErase]
  | cons a rest ih =>
    obtain ⟨ak, av⟩ := a
    by_cases hk : ak = k
    · subst hk
      simp [objErase, objGet, Ne.symm h, ih]
    · by_cases hk2 : ak = k2 <;> simp [objErase, objGet, hk, hk2, ih, h]

theorem keyAll_objSet (fs : List (String × Json)) (k : String) (v : Json) :
    keyAll (objSet fs k v) k v := by
  induction fs with
  | nil => intro q hq; simp [objSet] at hq
  | cons a rest ih =>
    obtain ⟨ak, av⟩ := a
    intro q hq hqk
    by_cases hk : ak = k <;> simp [objSet, hk] at hq
    · rcases hq with hq | hq
      · simp [hq]
      · exact ih q hq hqk
    · rcases hq with hq | hq
      · exfalso; apply hk; rw [← hqk, hq]
      · exact ih q hq hqk

theorem objSet_eq_self_of_keyAll {fs : List (String × Json)} {k : String} {v : Json}
    (h : keyAll fs k v) : objSet fs k v = fs := by
  induction fs with
  | nil => simp [objSet]
  | cons a rest ih =>
    obtain ⟨ak, av⟩ := a
    have hrest : keyAll rest k v := fun q hq => h q (List.mem_cons_of_mem _ hq)
    by_cases hk : ak = k
    · have : av = v := h (ak, av) (List.mem_cons_self _ _) hk
      simp [objSet, hk, this, ih hrest]
    · simp [objSet, hk, ih hrest]

theorem keyAll_objSet_ne {fs : List (String × Json)} {k k2 : String} {v w : Json}
    (hne : k2 ≠ k) (h : keyAll fs k v) : keyAll (objSet fs k2 w) k v := by
  induction fs with
  | nil => intro q hq; simp [objSet] at hq
  | cons a rest ih =>
    obtain ⟨ak, av⟩ := a
    have hrest : keyAll rest k v := fun q hq => h q (List.mem_cons_of_mem _ hq)
    intro q hq hqk
    by_cases hk : ak = k2 <;> simp [objSet, hk] at hq
    · rcases hq with hq | hq
      · exfalso; apply hne; rw [← hqk, hq]
      · exact ih hrest q hq hqk
    · rcases hq with hq | hq
      · subst hq; exact h (ak, av) (List.mem_cons_self _ _) hqk
      · exact ih hrest q hq hqk

theorem keyAll_objErase {fs : List (String × Json)} {k k2 : String} {v : Json}
    (h : keyAll fs k v) : keyAll (objErase fs k2) k v := by
  induction fs with
  | nil => intro q hq; simp [objErase] at hq
  | cons a rest ih =>
    obtain ⟨ak, av⟩ := a
    have hrest : keyAll rest k v := fun q hq => h q (List.mem_cons_of_mem _ hq)
    intro q hq hqk
    by_cases hk : ak = k2 <;> simp [objErase, hk] at hq
    · exact ih hrest q hq hqk
    · rcases hq with hq | hq
      · subst hq; exact h (ak, av) (List.mem_cons_self _ _) hqk
      · exact ih hrest q hq hqk

theorem natReprCore_length_le (fuel : Nat) : ∀ (n : Nat) (acc : List Char),
    acc.length ≤ (natReprCore fuel n acc).length := by
  induction fuel with
  | zero => intro n acc; simp [natReprCore]
  | succ fuel ih =>
    intro n acc
    by_cases hn : n = 0
    · simp [natReprCore, hn]
    · calc acc.length ≤ (hexDigit (n % 10) :: acc).length := by simp
        _ ≤ _ := by simpa [natReprCore, hn] using ih (n / 10) (hexDigit (n % 10) :: acc)

theorem natRepr_length_pos (n : Nat) : 0 < (natRepr n).length := by
  by_cases hn : n = 0
  · subst hn; decide
  · have h := natReprCore_length_le n (n / 10) [hexDigit (n % 10)]
    have e2 : natReprCore (n + 1) n [] = natReprCore n (n / 10) [hexDigit (n % 10)] := by
      simp [natReprCore, hn]
    have h3 : 0 < (natReprCore (n + 1) n []).length := by
      rw [e2]
      exact Nat.lt_of_lt_of_le (by simp) h
    simpa [natRepr, hn, String.length] using h3

theorem intRepr_length_pos (n : Int) : 0 < (intRepr n).length := by
  cases n with
  | ofNat m => simpa [intRepr] using natRepr_length_pos m
  | negSucc m =>
    have hm : ("-" : String).length = 1 := rfl
    have h := natRepr_length_pos (m + 1)
    simp only [intRepr, String.length_append, hm]
    omega

theorem dumps_length_pos (v : Json) : 0 < (dumps v).length := by
  have hq : ("\"" : String).length = 1 := rfl
  have hb : ("[" : String).length = 1 := rfl
  have ho : ("\x7b" : String).length = 1 := rfl
  cases v with
  | null => decide
  | bool b => cases b <;> decide
  | num n => simpa [dumps] using intRepr_length_pos n
  | str s =>
    simp only [dumps, dumpStr, String.length_append, hq]
    omega
  | arr xs =>
    cases xs with
    | nil => decide
    | cons x rest =>
      simp only [dumps, String.length_append, hb]
      omega
  | obj fs =>
    match fs with
    | [] => decide
    | (k, w) :: kvs =>
      simp only [dumps, String.length_append, ho]
      omega

theorem objGet_clearField_ne {fs : List (String × Json)} {k field : String}
    (h : k ≠ field) : objGet (clearField fs field) k = objGet fs k := by
  unfold clearField
  cases hg : objGet fs field with
  | none => rfl
  | some v =>
    cases v <;> simp [objGet_objSet_ne h, objGet_objErase_ne h]

theorem inertAt_clearField_self (fs : List (String × Json)) (field : String) :
    inertAt (clearField fs field) field := by
  intro w hw
  unfold clearField at hw
  cases hg : objGet fs field with
  | none => rw [hg] at hw; rw [hg] at hw; simp_all
  | some v =>
    rw [hg] at hw
    cases v with
    | arr xs =>
      rw [objGet_objSet_self hg] at hw
      cases hw; simp [truthy]
    | obj gs =>
      rw [objGet_objSet_self hg] at hw
      cases hw; simp [truthy]
    | null => rw [objGet_objErase_self] at hw; cases hw
    | bool b => rw [objGet_objErase_self] at hw; cases hw
    | num n => rw [objGet_objErase_self] at hw; cases hw
    | str s => rw [objGet_objErase_self] at hw; cases hw

theorem keyAll_clearField {fs : List (String × Json)} {k field : String} {v : Json}
    (hne : field ≠ k) (h : keyAll fs k v) : keyAll (clearField fs field) k v := by
  unfold clearField
  cases objGet fs field with
  | none => exact h
  | some w =>
    cases w <;> first
      | exact keyAll_objSet_ne hne h
      | exact keyAll_objErase h

theorem inertAt_congr {q2 q : List (String × Json)} {f : String}
    (he : objGet q2 f = objGet q f) (h : inertAt q f) : inertAt q2 f := by
  intro v hv
  exact h v (he ▸ hv)

theorem processField_fst_true (q : List (String × Json)) (f : String) :
    (processField true q f).1 = q := by
  unfold processField
  cases objGet q f with
  | none => rfl
  | some v =>
    by_cases hv : truthy v <;> simp [hv, dumps_length_pos v]

theorem objGet_processField_ne {q : List (String × Json)} {k f : String}
    (h : k ≠ f) (dr : Bool) : objGet (processField dr q f).1 k = objGet q k := by
  unfold processField
  cases objGet q f with
  | none => rfl
  | some v =>
    by_cases hv : truthy v <;> simp [hv, dumps_length_pos v]
    cases dr <;> simp [objGet_clearField_ne h]

theorem processField_snd_congr {q q0 : List (String × Json)} {f : String}
    (he : objGet q f = objGet q0 f) (dr dr2 : Bool) :
    (processField dr q f).2 = (processField dr2 q0 f).2 := by
  unfold processField
  rw [he]
  cases objGet q0 f with
  | none => rfl
  | some v =>
    by_cases hv : truthy v <;> simp [hv, dumps_length_pos v]

theorem processField_of_inert {q : List (String × Json)} {f : String}
    (h : inertAt q f) (dr : Bool) : processField dr q f = (q, false, 0) := by
  unfold processField
  cases hg : objGet q f with
  | none => rfl
  | some v => simp [h v hg]

theorem inertAt_processField_self (q : List (String × Json)) (f : String) :
    inertAt (processField false q f).1 f := by
  unfold processField
  cases hg : objGet q f with
  | none => intro v hv; simp at hv ⊢; exact absurd (hv ▸ hg) (by simp [hv])
  | some v =>
    by_cases hv : truthy v
    · simp [hv, dumps_length_pos v]
      exact inertAt_clearField_self q f
    · simp [hv]
      intro w hw
      rw [hg] at hw
      cases hw
      simpa using hv

theorem processField_bytes {q : List (String × Json)} {f : String} (dr : Bool) :
    (processField dr q f).2.2 = freedAt q f := by
  unfold processField freedAt
  cases objGet q f with
  | none => rfl
  | some v =>
    by_cases hv : truthy v <;> simp [hv, dumps_length_pos v]

theorem keyAll_processField {q : List (String × Json)} {k f : String} {v : Json}
    (hne : f ≠ k) (dr : Bool) (h : keyAll q k v) : keyAll (processField dr q f).1 k v := by
  unfold processField
  cases objGet q f with
  | none => exact h
  | some w =>
    by_cases hw : truthy w
    · simp only [hw, if_true, dumps_length_pos w]
      cases dr
      · simpa using keyAll_clearField hne h
      · simpa using h
    · simpa [hw] using h

theorem historyStep_fst_true (p : List (String × Json)) :
    (historyStep true p).1 = p := by
  unfold historyStep
  cases objGet p "history" with
  | none => rfl
  | some v => by_cases hv : truthy v <;> simp [hv]

theorem objGet_historyStep_ne {p : List (String × Json)} {k : String}
    (h : k ≠ "history") (dr : Bool) : objGet (historyStep dr p).1 k = objGet p k := by
  unfold historyStep
  cases objGet p "history" with
  | none => rfl
  | some v =>
    by_cases hv : truthy v <;> simp [hv]
    cases dr <;> simp [objGet_objSet_ne h]

theorem historyStep_snd_eq (p : List (String × Json)) (dr dr2 : Bool) :
    (historyStep dr p).2 = (historyStep dr2 p).2 := by
  unfold historyStep
  cases objGet p "history" with
  | none => rfl
  | some v => by_cases hv : truthy v <;> simp [hv]

theorem historyStep_of_inert {p : List (String × Json)}
    (h : inertAt p "history") (dr : Bool) : historyStep dr p = (p, false, 0) := by
  unfold historyStep
  cases hg : objGet p "history" with
  | none => rfl
  | some v => simp [h v hg]

theorem inertAt_historyStep_self (p : List (String × Json)) :
    inertAt (historyStep false p).1 "history" := by
  unfold historyStep
  cases hg : objGet p "history" with
  | none =>
    intro v hv
    simp at hv
    exact absurd (hv ▸ hg) (by simp [hv])
  | some v =>
    by_cases hv : truthy v
    · simp [hv]
      intro w hw
      rw [objGet_objSet_self hg] at hw
      cases hw
      simp [truthy]
    · simp [hv]
      intro w hw
      rw [hg] at hw
      cases hw
      simpa using hv

theorem historyStep_bytes (p : List (String × Json)) (dr : Bool) :
    (historyStep dr p).2.2 = freedAt p "history" := by
  unfold historyStep freedAt
  cases objGet p "history" with
  | none => rfl
  | some v => by_cases hv : truthy v <;> simp [hv]

theorem historyStep_flag (p : List (String × Json)) (dr : Bool) :
    (historyStep dr p).2.1 =
      (match objGet p "history" with
       | some v => truthy v
       | none => false) := by
  unfold historyStep
  cases objGet p "history" with
  | none => rfl
  | some v => by_cases hv : truthy v <;> simp [hv]

theorem keyAll_historyStep {p : List (String × Json)} {k : String} {v : Json}
    (hne : k ≠ "history") (dr : Bool) (h : keyAll p k v) :
    keyAll (historyStep dr p).1 k v := by
  unfold historyStep
  cases objGet p "history" with
  | none => exact h
  | some w =>
    by_cases hw : truthy w <;> simp [hw]
    · cases dr
      · simpa using keyAll_objSet_ne (Ne.symm hne) h
      · simpa using h
    · exact h

theorem chatFold_fst_true (fields : List String) :
    ∀ (q : List (String × Json)) (b : Nat),
    (fields.foldl (chatStep true) (q, b)).1 = q := by
  induction fields with
  | nil => intro q b; rfl
  | cons f fs ih =>
    intro q b
    simp only [List.foldl_cons, chatStep, processField_fst_true]
    exact ih q _

theorem chatFold_frame (fields : List String) :
    ∀ (q : List (String × Json)) (b : Nat) (k : String) (dr : Bool), k ∉ fields →
    objGet ((fields.foldl (chatStep dr) (q, b)).1) k = objGet q k := by
  induction fields with
  | nil => intro q b k dr _; rfl
  | cons f fs ih =>
    intro q b k dr hk
    simp only [List.mem_cons, not_or] at hk
    simp only [List.foldl_cons, chatStep]
    rw [ih _ _ _ _ hk.2, objGet_processField_ne hk.1]

theorem chatFold_snd_congr (fields : List String) :
    ∀ (q q0 : List (String × Json)) (b : Nat) (dr dr2 : Bool), fields.Nodup →
    (∀ f ∈ fields, objGet q f = objGet q0 f) →
    (fields.foldl (chatStep dr) (q, b)).2 = (fields.foldl (chatStep dr2) (q0, b)).2 := by
  induction fields with
  | nil => intro q q0 b dr dr2 _ _; rfl
  | cons f fs ih =>
    intro q q0 b dr dr2 hnd hq
    have hf : objGet q f = objGet q0 f := hq f (List.mem_cons_self _ _)
    have hnd2 := (List.nodup_cons.mp hnd)
    simp only [List.foldl_cons, chatStep]
    rw [processField_snd_congr hf dr dr2]
    apply ih _ _ _ dr dr2 hnd2.2
    intro g hg
    have hgf : g ≠ f := fun he => hnd2.1 (he ▸ hg)
    rw [objGet_processField_ne hgf, objGet_processField_ne hgf]
    exact hq g (List.mem_cons_of_mem _ hg)

theorem chatFold_bytes_sum (fields : List String) :
    ∀ (q : List (String × Json)) (b : Nat),
    (fields.foldl (chatStep true) (q, b)).2 = b + (fields.map (freedAt q)).sum := by
  induction fields with
  | nil => intro q b; simp
  | cons f fs ih =>
    intro q b
    simp only [List.foldl_cons, chatStep, processField_fst_true, List.map_cons, List.sum_cons]
    rw [ih q _, processField_bytes true]
    omega

theorem chatFold_inert (fields : List String) :
    ∀ (q : List (String × Json)) (b : Nat), fields.Nodup →
    ∀ f ∈ fields, inertAt ((fields.foldl (chatStep false) (q, b)).1) f := by
  induction fields with
  | nil => intro q b _ f hf; cases hf
  | cons g gs ih =>
    intro q b hnd f hf
    have hnd2 := List.nodup_cons.mp hnd
    simp only [List.foldl_cons, chatStep]
    rcases List.mem_cons.mp hf with hf | hf
    · subst hf
      apply inertAt_congr (chatFold_frame gs _ _ _ _ hnd2.1)
      exact inertAt_processField_self q f
    · exact ih _ _ hnd2.2 f hf

theorem chatFold_id (fields : List String) :
    ∀ (q : List (String × Json)) (b : Nat) (dr : Bool),
    (∀ f ∈ fields, inertAt q f) →
    fields.foldl (chatStep dr) (q, b) = (q, b) := by
  induction fields with
  | nil => intro q b dr _; rfl
  | cons f fs ih =>
    intro q b dr h
    simp only [List.foldl_cons, chatStep, processField_of_inert (h f (List.mem_cons_self _ _)) dr]
    simpa using ih q b dr (fun g hg => h g (List.mem_cons_of_mem _ hg))

theorem topFold_fst_true (fields : List String) :
    ∀ (q : List (String × Json)) (c b : Nat),
    (fields.foldl (topStep true) (q, c, b)).1 = q := by
  induction fields with
  | nil => intro q c b; rfl
  | cons f fs ih =>
    intro q c b
    simp only [List.foldl_cons, topStep, processField_fst_true]
    exact ih q _ _

theorem topFold_frame (fields : List String) :
    ∀ (q : List (String × Json)) (c b : Nat) (k : String) (dr : Bool), k ∉ fields →
    objGet ((fields.foldl (topStep dr) (q, c, b)).1) k = objGet q k := by
  induction fields with
  | nil => intro q c b k dr _; rfl
  | cons f fs ih =>
    intro q c b k dr hk
    simp only [List.mem_cons, not_or] at hk
    simp only [List.foldl_cons, topStep]
    rw [ih _ _ _ _ _ hk.2, objGet_processField_ne hk.1]

theorem topFold_snd_congr (fields : List String) :
    ∀ (q q0 : List (String × Json)) (c b : Nat) (dr dr2 : Bool), fields.Nodup →
    (∀ f ∈ fields, objGet q f = objGet q0 f) →
    (fields.foldl (topStep dr) (q, c, b)).2 = (fields.foldl (topStep dr2) (q0, c, b)).2 := by
  induction fields with
  | nil => intro q q0 c b dr dr2 _ _; rfl
  | cons f fs ih =>
    intro q q0 c b dr dr2 hnd hq
    have hf : objGet q f = objGet q0 f := hq f (List.mem_cons_self _ _)
    have hnd2 := (List.nodup_cons.mp hnd)
    simp only [List.foldl_cons, topStep]
    rw [processField_snd_congr hf dr dr2]
    apply ih _ _ _ _ dr dr2 hnd2.2
    intro g hg
    have hgf : g ≠ f := fun he => hnd2.1 (he ▸ hg)
    rw [objGet_processField_ne hgf, objGet_processField_ne hgf]
    exact hq g (List.mem_cons_of_mem _ hg)

theorem topFold_bytes_sum (fields : List String) :
    ∀ (q : List (String × Json)) (c b : Nat),
    (fields.foldl (topStep true) (q, c, b)).2.2 = b + (fields.map (freedAt q)).sum := by
  induction fields with
  | nil => intro q c b; simp
  | cons f fs ih =>
    intro q c b
    simp only [List.foldl_cons, topStep, processField_fst_true, List.map_cons, List.sum_cons]
    rw [ih q _ _, processField_bytes true]
    omega

theorem topFold_inert (fields : List String) :
    ∀ (q : List (String × Json)) (c b : Nat), fields.Nodup →
    ∀ f ∈ fields, inertAt ((fields.foldl (topStep false) (q, c, b)).1) f := by
  induction fields with
  | nil => intro q c b _ f hf; cases hf
  | cons g gs ih =>
    intro q c b hnd f hf
    have hnd2 := List.nodup_cons.mp hnd
    simp only [List.foldl_cons, topStep]
    rcases List.mem_cons.mp hf with hf | hf
    · subst hf
      apply inertAt_congr (topFold_frame gs _ _ _ _ _ hnd2.1)
      exact inertAt_processField_self q f
    · exact ih _ _ _ hnd2.2 f hf

theorem topFold_id (fields : List String) :
    ∀ (q : List (String × Json)) (c b : Nat) (dr : Bool),
    (∀ f ∈ fields, inertAt q f) →
    fields.foldl (topStep dr) (q, c, b) = (q, c, b) := by
  induction fields with
  | nil => intro q c b dr _; rfl
  | cons f fs ih =>
    intro q c b dr h
    simp only [List.foldl_cons, topStep, processField_of_inert (h f (List.mem_cons_self _ _)) dr]
    simpa using ih q c b dr (fun g hg => h g (List.mem_cons_of_mem _ hg))

theorem keyAll_topFold (fields : List String) :
    ∀ (q : List (String × Json)) (c b : Nat) (k : String) (v : Json) (dr : Bool),
    k ∉ fields → keyAll q k v →
    keyAll ((fields.foldl (topStep dr) (q, c, b)).1) k v := by
  induction fields with
  | nil => intro q c b k v dr _ h; exact h
  | cons f fs ih =>
    intro q c b k v dr hk h
    simp only [List.mem_cons, not_or] at hk
    simp only [List.foldl_cons, topStep]
    exact ih _ _ _ _ _ dr hk.2 (keyAll_processField (Ne.symm hk.1) dr h)

theorem history_not_mem_projTargetFields : "history" ∉ projTargetFields := by decide

theorem projects_not_mem_topTargetFields : "projects" ∉ topTargetFields := by decide

theorem projTargetFields_nodup : projTargetFields.Nodup := by decide

theorem topTargetFields_nodup : topTargetFields.Nodup := by decide

theorem cleanProject_fst_true (p : List (String × Json)) :
    (cleanProject true p).1 = p := by
  simp only [cleanProject, historyStep_fst_true]
  exact chatFold_fst_true _ p 0

theorem cleanProject_flag (p : List (String × Json)) (dr : Bool) :
    (cleanProject dr p).2.1 = (historyStep dr p).2.1 := rfl

theorem cleanProject_flag_eq (p : List (String × Json)) (dr dr2 : Bool) :
    (cleanProject dr p).2.1 = (cleanProject dr2 p).2.1 := by
  rw [cleanProject_flag, cleanProject_flag, congrArg Prod.fst (historyStep_snd_eq p dr dr2)]

theorem cleanProject_bytes_eq (p : List (String × Json)) :
    (cleanProject false p).2.2 = (cleanProject true p).2.2 := by
  have hb : (projTargetFields.foldl (chatStep false) ((historyStep false p).1, 0)).2
      = (projTargetFields.foldl (chatStep true) ((historyStep true p).1, 0)).2 := by
    rw [historyStep_fst_true]
    apply chatFold_snd_congr _ _ _ _ false true projTargetFields_nodup
    intro f hf
    have hne : f ≠ "history" := fun he => history_not_mem_projTargetFields (he ▸ hf)
    exact objGet_historyStep_ne hne false
  simp only [cleanProject]
  rw [hb, congrArg Prod.snd (historyStep_snd_eq p false true)]

theorem objGet_cleanProject_ne {p : List (String × Json)} {k : String}
    (h1 : k ∉ projTargetFields) (h2 : k ≠ "history") :
    objGet (cleanProject false p).1 k = objGet p k := by
  simp only [cleanProject]
  rw [chatFold_frame _ _ _ _ _ h1, objGet_historyStep_ne h2]

theorem cleanProject_bytes_dry (p : List (String × Json)) :
    (cleanProject true p).2.2 =
      freedAt p "history" + (projTargetFields.map (freedAt p)).sum := by
  simp only [cleanProject, historyStep_fst_true]
  rw [chatFold_bytes_sum, historyStep_bytes]
  omega

theorem cleanProject_inert (p : List (String × Json)) :
    inertAt (cleanProject false p).1 "history"
      ∧ ∀ f ∈ projTargetFields, inertAt (cleanProject false p).1 f := by
  constructor
  · simp only [cleanProject]
    exact inertAt_congr
      (chatFold_frame _ _ _ _ _ history_not_mem_projTargetFields)
      (inertAt_historyStep_self p)
  · intro f hf
    simp only [cleanProject]
    exact chatFold_inert _ _ _ projTargetFields_nodup f hf

theorem cleanProject_of_inert {p : List (String × Json)}
    (h1 : inertAt p "history") (h2 : ∀ f ∈ projTargetFields, inertAt p f) (dr : Bool) :
    cleanProject dr p = (p, false, 0) := by
  simp only [cleanProject, historyStep_of_inert h1 dr]
  rw [chatFold_id _ _ _ _ h2]
  simp

theorem cleanProject_history_cleared {p : List (String × Json)} {v : Json}
    (hg : objGet p "history" = some v) (hv : truthy v = true) :
    objGet (cleanProject false p).1 "history" = some (Json.arr []) := by
  simp only [cleanProject]
  rw [chatFold_frame _ _ _ _ _ history_not_mem_projTargetFields]
  unfold historyStep
  rw [hg]
  simp [hv, objGet_objSet_self hg]

theorem cleanEntry_fst_fst (kv : String × Json) (dr : Bool) :
    (cleanEntry dr kv).1.1 = kv.1 := by
  obtain ⟨k, v⟩ := kv
  cases v <;> rfl

theorem cleanEntry_true_fst (kv : String × Json) :
    (cleanEntry true kv).1 = kv := by
  obtain ⟨k, v⟩ := kv
  cases v <;> simp [cleanEntry, cleanProject_fst_true]

theorem cleanEntry_count_eq (kv : String × Json) :
    (cleanEntry false kv).2.1 = (cleanEntry true kv).2.1 := by
  obtain ⟨k, v⟩ := kv
  cases v <;> simp [cleanEntry, cleanProject_flag_eq _ false true]

theorem cleanEntry_bytes_eq (kv : String × Json) :
    (cleanEntry false kv).2.2 = (cleanEntry true kv).2.2 := by
  obtain ⟨k, v⟩ := kv
  cases v <;> simp [cleanEntry, cleanProject_bytes_eq]

theorem cleanDoc_fst_true (d : List (String × Json)) :
    (cleanDoc true d).1 = d := by
  simp only [cleanDoc]
  cases hp : objGet d "projects" with
  | none => simpa using topFold_fst_true _ d 0 0
  | some v =>
    cases v <;> simpa using topFold_fst_true _ d 0 _

theorem cleanDoc_report_eq (d : List (String × Json)) :
    (cleanDoc false d).2 = (cleanDoc true d).2 := by
  have ht0 := topFold_snd_congr topTargetFields d d 0 0 false true
    topTargetFields_nodup (fun _ _ => rfl)
  cases hp : objGet d "projects" with
  | none =>
    simp only [cleanDoc, hp]
    rw [Report.mk.injEq]
    exact ⟨rfl, congrArg Prod.fst ht0, congrArg Prod.snd ht0⟩
  | some v =>
    cases v
    case obj projs =>
      have hcount : (projs.map (cleanEntry false)).map (fun e => e.2.1)
          = (projs.map (cleanEntry true)).map (fun e => e.2.1) := by
        simp only [List.map_map]
        exact List.map_congr_left (fun kv _ => cleanEntry_count_eq kv)
      have hbytes : (projs.map (cleanEntry false)).map (fun e => e.2.2)
          = (projs.map (cleanEntry true)).map (fun e => e.2.2) := by
        simp only [List.map_map]
        exact List.map_congr_left (fun kv _ => cleanEntry_bytes_eq kv)
      have ht := topFold_snd_congr topTargetFields
        (objSet d "projects" (Json.obj ((projs.map (cleanEntry false)).map (fun e => e.1))))
        d 0 ((projs.map (cleanEntry true)).map (fun e => e.2.2)).sum false true
        topTargetFields_nodup
        (fun f hf => objGet_objSet_ne (fun he => projects_not_mem_topTargetFields (he ▸ hf)))
      simp only [cleanDoc, hp, Bool.false_eq_true, if_false, if_true]
      rw [Report.mk.injEq]
      refine ⟨?_, ?_, ?_⟩
      · rw [hcount]
      · rw [hbytes]
        exact congrArg Prod.fst ht
      · rw [hbytes]
        exact congrArg Prod.snd ht
    all_goals
      simp only [cleanDoc, hp]
      rw [Report.mk.injEq]
      exact ⟨rfl, congrArg Prod.fst ht0, congrArg Prod.snd ht0⟩

theorem objGet_cleanDoc_ne {d : List (String × Json)} {k : String}
    (h1 : k ∉ topTargetFields) (h2 : k ≠ "projects") :
    objGet (cleanDoc false d).1 k = objGet d k := by
  cases hp : objGet d "projects" with
  | none =>
    simp only [cleanDoc, hp]
    exact topFold_frame _ d 0 0 k false h1
  | some v =>
    cases v
    case obj projs =>
      simp only [cleanDoc, hp, Bool.false_eq_true, if_false]
      rw [topFold_frame _ _ _ _ _ _ h1, objGet_objSet_ne h2]
    all_goals
      simp only [cleanDoc, hp]
      exact topFold_frame _ d 0 0 k false h1

theorem cleanDoc_projects {d : List (String × Json)} {projs : List (String × Json)}
    (hp : objGet d "projects" = some (Json.obj projs)) :
    objGet (cleanDoc false d).1 "projects"
      = some (Json.obj ((projs.map (cleanEntry false)).map (fun e => e.1))) := by
  simp only [cleanDoc, hp]
  rw [topFold_frame _ _ _ _ _ _ projects_not_mem_topTargetFields]
  exact objGet_objSet_self hp

theorem cleanDoc_hist_count {d : List (String × Json)} {projs : List (String × Json)}
    (hp : objGet d "projects" = some (Json.obj projs)) :
    (cleanDoc false d).2.projectsWithHistoryCleared
      = ((projs.map (cleanEntry false)).map (fun e => e.2.1)).sum := by
  simp only [cleanDoc, hp]

theorem cleanDoc_top_inert (d : List (String × Json)) :
    ∀ f ∈ topTargetFields, inertAt (cleanDoc false d).1 f := by
  intro f hf
  cases hp : objGet d "projects" with
  | none =>
    simp only [cleanDoc, hp]
    exact topFold_inert _ _ _ _ topTargetFields_nodup f hf
  | some v =>
    cases v
    all_goals
      simp only [cleanDoc, hp]
      exact topFold_inert _ _ _ _ topTargetFields_nodup f hf

theorem cleanDoc_projects_none {d : List (String × Json)}
    (hp : objGet d "projects" = none) :
    objGet (cleanDoc false d).1 "projects" = none := by
  simp only [cleanDoc, hp]
  rw [topFold_frame _ _ _ _ _ _ projects_not_mem_topTargetFields]
  exact hp

theorem cleanDoc_projects_nonobj {d : List (String × Json)} {v : Json}
    (hp : objGet d "projects" = some v) (hv : ∀ fs, v ≠ Json.obj fs) :
    objGet (cleanDoc false d).1 "projects" = some v := by
  cases v
  case obj fs => exact absurd rfl (hv fs)
  all_goals
    simp only [cleanDoc, hp]
    rw [topFold_frame _ _ _ _ _ _ projects_not_mem_topTargetFields]
    exact hp

theorem cleanDoc_keyAll_projects {d : List (String × Json)} {projs : List (String × Json)}
    (hp : objGet d "projects" = some (Json.obj projs)) :
    keyAll (cleanDoc false d).1 "projects"
      (Json.obj ((projs.map (cleanEntry false)).map (fun e => e.1))) := by
  simp only [cleanDoc, hp, Bool.false_eq_true, if_false]
  exact keyAll_topFold _ _ _ _ _ _ false projects_not_mem_topTargetFields (keyAll_objSet _ _ _)

theorem cleanEntry_idem (kv : String × Json) :
    cleanEntry false ((cleanEntry false kv).1) = ((cleanEntry false kv).1, 0, 0) := by
  obtain ⟨k, v⟩ := kv
  cases v
  case obj p =>
    have hin := cleanProject_inert p
    have hfix := cleanProject_of_inert hin.1 hin.2 false
    simp [cleanEntry, hfix]
  all_goals rfl

theorem cleanEntry_bytes_dry (kv : String × Json) :
    (cleanEntry true kv).2.2 =
      (match kv.2 with
       | Json.obj p => (("history" :: projTargetFields).map (freedAt p)).sum
       | _ => 0) := by
  obtain ⟨k, v⟩ := kv
  cases v
  case obj p =>
    simp [cleanEntry, cleanProject_bytes_dry]
  all_goals rfl

/-- C1: for every document and every entry of the `projects` mapping, the
real run increments `projectsWithHistoryCleared` by exactly one per
object-valued entry with a truthy `history` field (and by zero otherwise),
and every entry whose `history` was a non-empty array has `history = []` in
the output document. -/
theorem c1_history_clearing (d projs : List (String × Json))
    (hp : objGet d "projects" = some (Json.obj projs)) :
    (cleanDoc false d).2.projectsWithHistoryCleared
      = (projs.map (fun kv =>
          match kv.2 with
          | Json.obj p =>
            (match objGet p "history" with
             | some v => if truthy v then 1 else 0
             | none => 0)
          | _ => 0)).sum
    ∧ objGet (cleanDoc false d).1 "projects"
        = some (Json.obj ((projs.map (cleanEntry false)).map (fun e => e.1)))
    ∧ ∀ kv ∈ projs, ∀ (p : List (String × Json)) (hs : List Json),
        kv.2 = Json.obj p → objGet p "history" = some (Json.arr hs) → hs ≠ [] →
        ∃ p2, (cleanEntry false kv).1 = (kv.1, Json.obj p2)
          ∧ objGet p2 "history" = some (Json.arr []) := by
  refine ⟨?_, cleanDoc_projects hp, ?_⟩
  · rw [cleanDoc_hist_count hp]
    simp only [List.map_map]
    refine congrArg List.sum (List.map_congr_left ?_)
    intro kv hkv
    obtain ⟨k, v⟩ := kv
    cases v with
    | obj p =>
      simp only [Function.comp_apply, cleanEntry, cleanProject_flag, historyStep_flag]
      cases objGet p "history" with
      | none => rfl
      | some w => cases hw : truthy w <;> simp [hw]
    | null => rfl
    | bool b => rfl
    | num n => rfl
    | str s => rfl
    | arr xs => rfl
  · intro kv hkv p hs hobj hhist hne
    obtain ⟨k, v⟩ := kv
    cases hobj
    refine ⟨(cleanProject false p).1, rfl, ?_⟩
    apply cleanProject_history_cleared hhist
    simp [truthy, hne]

/-- Witness for C1 at a one-project document whose history is `[1]`. -/
theorem c1_history_clearing_witness :
    objGet [("projects", Json.obj [("p1", Json.obj [("history", Json.arr [Json.num 1])])])]
        "projects" = some (Json.obj [("p1", Json.obj [("history", Json.arr [Json.num 1])])])
    ∧ (cleanDoc false
        [("projects", Json.obj [("p1", Json.obj [("history", Json.arr [Json.num 1])])])]
        ).2.projectsWithHistoryCleared
      = ([("p1", Json.obj [("history", Json.arr [Json.num 1])])].map
          (fun kv : String × Json =>
            match kv.2 with
            | Json.obj p =>
              (match objGet p "history" with
               | some v => if truthy v then 1 else 0
               | none => 0)
            | _ => 0)).sum :=
  ⟨rfl,
   (c1_history_clearing
     [("projects", Json.obj [("p1", Json.obj [("history", Json.arr [Json.num 1])])])]
     [("p1", Json.obj [("history", Json.arr [Json.num 1])])] rfl).1⟩

/-- C2 counterexample: the claim says clearing a field whose original value
is an object yields the empty object for every clearable TargetField, but a
truthy object-valued `history` (a project-scope TargetField) is replaced by
the empty array. -/
theorem c2_type_preservation_counterexample :
    objGet [("history", Json.obj [("a", Json.num 1)])] "history"
        = some (Json.obj [("a", Json.num 1)])
    ∧ truthy (Json.obj [("a", Json.num 1)]) = true
    ∧ objGet (cleanProject false [("history", Json.obj [("a", Json.num 1)])]).1 "history"
        = some (Json.arr [])
    ∧ Json.arr [] ≠ Json.obj [] :=
  ⟨rfl, rfl, rfl, fun h => Json.noConfusion h⟩

/-- C2 amended: clearing is type-preserving for every clearable chat field
other than `history` (object to empty object, array to empty array, scalar
to key removal), while a truthy `history` is always replaced by the empty
array regardless of its original type. -/
theorem c2_type_preservation_amended
    (q : List (String × Json)) (f : String) (v : Json)
    (hg : objGet q f = some v) (hv : truthy v = true) :
    ((∀ fs, v = Json.obj fs → objGet (processField false q f).1 f = some (Json.obj []))
      ∧ (∀ xs, v = Json.arr xs → objGet (processField false q f).1 f = some (Json.arr []))
      ∧ ((∀ fs, v ≠ Json.obj fs) → (∀ xs, v ≠ Json.arr xs) →
          objGet (processField false q f).1 f = none))
    ∧ ∀ (p : List (String × Json)) (w : Json),
        objGet p "history" = some w → truthy w = true →
        objGet (cleanProject false p).1 "history" = some (Json.arr []) := by
  have hred : (processField false q f).1 = clearField q f := by
    unfold processField
    rw [hg]
    simp [hv, dumps_length_pos v]
  refine ⟨⟨?_, ?_, ?_⟩, fun p w hw htw => cleanProject_history_cleared hw htw⟩
  · rintro fs rfl
    rw [hred]
    unfold clearField
    rw [hg]
    exact objGet_objSet_self hg
  · rintro xs rfl
    rw [hred]
    unfold clearField
    rw [hg]
    exact objGet_objSet_self hg
  · intro hnobj hnarr
    rw [hred]
    unfold clearField
    rw [hg]
    cases v
    case obj fs => exact absurd rfl (hnobj fs)
    case arr xs => exact absurd rfl (hnarr xs)
    all_goals exact objGet_objErase_self

/-- Witness for the amended C2 at a truthy string-valued chat field, which
is removed. -/
theorem c2_type_preservation_amended_witness :
    objGet [("chat", Json.str "x")] "chat" = some (Json.str "x")
    ∧ truthy (Json.str "x") = true
    ∧ objGet (processField false [("chat", Json.str "x")] "chat").1 "chat" = none :=
  ⟨rfl, rfl,
   (c2_type_preservation_amended [("chat", Json.str "x")] "chat" (Json.str "x")
       rfl rfl).1.2.2
     (fun _ h => nomatch h) (fun _ h => nomatch h)⟩

/-- C6: a field is acted on only when present and truthy; a field holding a
falsy value (null, zero, false, empty string, empty array, empty mapping)
is left untouched and contributes nothing to any counter. -/
theorem c6_truthiness_gate (dr : Bool) (q p : List (String × Json)) (f : String) :
    ((objGet q f = none → processField dr q f = (q, false, 0))
      ∧ ∀ v, objGet q f = some v → truthy v = false → processField dr q f = (q, false, 0))
    ∧ ((objGet p "history" = none → historyStep dr p = (p, false, 0))
      ∧ ∀ v, objGet p "history" = some v → truthy v = false → historyStep dr p = (p, false, 0))
    ∧ truthy Json.null = false ∧ truthy (Json.num 0) = false
    ∧ truthy (Json.bool false) = false ∧ truthy (Json.str "") = false
    ∧ truthy (Json.arr []) = false ∧ truthy (Json.obj []) = false := by
  refine ⟨⟨?_, ?_⟩, ⟨?_, ?_⟩, rfl, by decide, rfl, by decide, rfl, rfl⟩
  · intro hn
    exact processField_of_inert (fun w hw => by rw [hn] at hw; cases hw) dr
  · intro v hv htv
    exact processField_of_inert (fun w hw => by rw [hv] at hw; cases hw; exact htv) dr
  · intro hn
    exact historyStep_of_inert (fun w hw => by rw [hn] at hw; cases hw) dr
  · intro v hv htv
    exact historyStep_of_inert (fun w hw => by rw [hv] at hw; cases hw; exact htv) dr

/-- Witness for C6: a present but empty `messages` array and an absent
`history` are both left untouched. -/
theorem c6_truthiness_gate_witness :
    objGet [("messages", Json.arr [])] "messages" = some (Json.arr [])
    ∧ truthy (Json.arr []) = false
    ∧ processField false [("messages", Json.arr [])] "messages"
        = ([("messages", Json.arr [])], false, 0)
    ∧ objGet [("x", Json.num 1)] "history" = none
    ∧ historyStep false [("x", Json.num 1)] = ([("x", Json.num 1)], false, 0) :=
  ⟨rfl, rfl,
   (c6_truthiness_gate false [("messages", Json.arr [])] [] "messages").1.2
     (Json.arr []) rfl rfl,
   rfl,
   (c6_truthiness_gate false [] [("x", Json.num 1)] "messages").2.1.1 rfl⟩

/-- C3: a dry run leaves the on-disk state untouched (both paths
byte-identical to before), does not mutate the document, and produces the
same report counts as a real run on the same input. -/
theorem c3_dry_run_purity (confirm : Bool) (st : SysState)
    (d : List (String × Json)) (v : Json) :
    (runClean true confirm st).post = st
    ∧ (cleanDoc true d).1 = d
    ∧ (cleanDoc true d).2 = (cleanDoc false d).2
    ∧ (cleanDocRoot true v).1 = v
    ∧ (cleanDocRoot true v).2 = (cleanDocRoot false v).2 := by
  refine ⟨?_, cleanDoc_fst_true d, (cleanDoc_report_eq d).symm, ?_, ?_⟩
  · unfold runClean
    cases hf : st.file with
    | none => rfl
    | some f =>
      simp only [Bool.true_eq_false, false_and, and_false, if_false]
      cases hp : f.parsed with
      | none => rfl
      | some data => simp
  · cases v with
    | obj fs => simpa [cleanDocRoot] using cleanDoc_fst_true fs
    | null => rfl
    | bool b => rfl
    | num n => rfl
    | str s => rfl
    | arr xs => rfl
  · cases v with
    | obj fs => simpa [cleanDocRoot] using (cleanDoc_report_eq fs).symm
    | null => rfl
    | bool b => rfl
    | num n => rfl
    | str s => rfl
    | arr xs => rfl

/-- C4: a real run preserves every root-level key other than the traversed
`projects` mapping and the document-scope chat fields, and inside each
project entry every key other than `history` and the project-scope chat
fields; the `projects` value itself changes only by the per-entry
transformation, which keeps every entry key. -/
theorem c4_untouched_fields (d p : List (String × Json)) :
    (∀ k, k ∉ topTargetFields → k ≠ "projects" →
        objGet (cleanDoc false d).1 k = objGet d k)
    ∧ (∀ k, k ∉ projTargetFields → k ≠ "history" →
        objGet (cleanProject false p).1 k = objGet p k)
    ∧ ∀ projs, objGet d "projects" = some (Json.obj projs) →
        objGet (cleanDoc false d).1 "projects"
          = some (Json.obj ((projs.map (cleanEntry false)).map (fun e => e.1)))
        ∧ ∀ kv ∈ projs, (cleanEntry false kv).1.1 = kv.1 :=
  ⟨fun _ h1 h2 => objGet_cleanDoc_ne h1 h2,
   fun _ h1 h2 => objGet_cleanProject_ne h1 h2,
   fun _ hp => ⟨cleanDoc_projects hp, fun kv _ => cleanEntry_fst_fst kv false⟩⟩

/-- Witness for C4 at keys outside both TargetField sets. -/
theorem c4_untouched_fields_witness :
    ("other" ∉ topTargetFields ∧ "other" ≠ "projects"
      ∧ objGet (cleanDoc false [("other", Json.num 7)]).1 "other"
          = objGet [("other", Json.num 7)] "other")
    ∧ ("keep" ∉ projTargetFields ∧ "keep" ≠ "history"
      ∧ objGet (cleanProject false [("keep", Json.num 5)]).1 "keep"
          = objGet [("keep", Json.num 5)] "keep") :=
  ⟨⟨by decide, by decide,
    (c4_untouched_fields [("other", Json.num 7)] []).1 "other" (by decide) (by decide)⟩,
   ⟨by decide, by decide,
    (c4_untouched_fields [] [("keep", Json.num 5)]).2.1 "keep" (by decide) (by decide)⟩⟩

/-- C7: the report's `estimatedBytesFreed` equals the sum of the serialized
sizes of the prior values of all cleared fields: `history` and the chat
fields of each object-valued project entry, plus the document-scope chat
fields; it is independent of any on-disk size delta. -/
theorem c7_estimated_bytes (d : List (String × Json)) :
    (cleanDoc false d).2.estimatedBytesFreed
      = (match objGet d "projects" with
         | some (Json.obj projs) =>
           (projs.map (fun kv =>
             match kv.2 with
             | Json.obj p => (("history" :: projTargetFields).map (freedAt p)).sum
             | _ => 0)).sum
         | _ => 0)
        + (topTargetFields.map (freedAt d)).sum := by
  rw [congrArg Report.estimatedBytesFreed (cleanDoc_report_eq d)]
  cases hp : objGet d "projects" with
  | none =>
    simp only [cleanDoc, hp]
    rw [topFold_bytes_sum]
  | some v =>
    cases v with
    | obj projs =>
      have hb : (projs.map (cleanEntry true)).map (fun e => e.2.2)
          = projs.map (fun kv =>
              match kv.2 with
              | Json.obj p => (("history" :: projTargetFields).map (freedAt p)).sum
              | _ => 0) := by
        simp only [List.map_map]
        exact List.map_congr_left (fun kv _ => cleanEntry_bytes_dry kv)
      simp only [cleanDoc, hp, if_true]
      rw [topFold_bytes_sum, hb]
    | null =>
      simp only [cleanDoc, hp]
      rw [topFold_bytes_sum]
    | bool b =>
      simp only [cleanDoc, hp]
      rw [topFold_bytes_sum]
    | num n =>
      simp only [cleanDoc, hp]
      rw [topFold_bytes_sum]
    | str s =>
      simp only [cleanDoc, hp]
      rw [topFold_bytes_sum]
    | arr xs =>
      simp only [cleanDoc, hp]
      rw [topFold_bytes_sum]

/-- C10: a `projects` value that is not a mapping, and a project entry that
is not a mapping, are left exactly unchanged and contribute nothing to any
report counter. -/
theorem c10_nonobject_projects (d : List (String × Json)) (v : Json)
    (kv : String × Json) :
    (objGet d "projects" = some v → (∀ fs, v ≠ Json.obj fs) →
      objGet (cleanDoc false d).1 "projects" = some v
      ∧ (cleanDoc false d).2.projectsWithHistoryCleared = 0
      ∧ (cleanDoc false d).2.estimatedBytesFreed
          = (topTargetFields.map (freedAt d)).sum)
    ∧ ((∀ p, kv.2 ≠ Json.obj p) → cleanEntry false kv = (kv, 0, 0)) := by
  constructor
  · intro hp hv
    refine ⟨cleanDoc_projects_nonobj hp hv, ?_, ?_⟩
    · cases v with
      | obj fs => exact absurd rfl (hv fs)
      | null => simp only [cleanDoc, hp]
      | bool b => simp only [cleanDoc, hp]
      | num n => simp only [cleanDoc, hp]
      | str s => simp only [cleanDoc, hp]
      | arr xs => simp only [cleanDoc, hp]
    · rw [congrArg Report.estimatedBytesFreed (cleanDoc_report_eq d)]
      cases v with
      | obj fs => exact absurd rfl (hv fs)
      | null => simp only [cleanDoc, hp]; rw [topFold_bytes_sum]; omega
      | bool b => simp only [cleanDoc, hp]; rw [topFold_bytes_sum]; omega
      | num n => simp only [cleanDoc, hp]; rw [topFold_bytes_sum]; omega
      | str s => simp only [cleanDoc, hp]; rw [topFold_bytes_sum]; omega
      | arr xs => simp only [cleanDoc, hp]; rw [topFold_bytes_sum]; omega
  · intro hv
    obtain ⟨k, w⟩ := kv
    cases w with
    | obj p => exact absurd rfl (hv p)
    | null => rfl
    | bool b => rfl
    | num n => rfl
    | str s => rfl
    | arr xs => rfl

/-- Witness for C10 at a string-valued `projects` and a numeric entry. -/
theorem c10_nonobject_projects_witness :
    objGet [("projects", Json.str "oops")] "projects" = some (Json.str "oops")
    ∧ objGet (cleanDoc false [("projects", Json.str "oops")]).1 "projects"
        = some (Json.str "oops")
    ∧ (cleanDoc false [("projects", Json.str "oops")]).2.projectsWithHistoryCleared = 0
    ∧ cleanEntry false ("p", Json.num 3) = (("p", Json.num 3), 0, 0) := by
  have h := (c10_nonobject_projects [("projects", Json.str "oops")] (Json.str "oops")
    ("p", Json.num 3)).1 rfl (fun fs he => nomatch he)
  exact ⟨rfl, h.1, h.2.1,
    (c10_nonobject_projects [("projects", Json.str "oops")] (Json.str "oops")
      ("p", Json.num 3)).2 (fun p he => nomatch he)⟩

/-- C8: when the file's bytes are not valid JSON, the run fails and the
state of both paths is untouched: no backup is created and the original is
never written, in dry and real runs alike. -/
theorem c8_malformed_aborts (dr c : Bool) (st : SysState) (f : DiskFile)
    (hf : st.file = some f) (hp : f.parsed = none) :
    runClean dr c st = ⟨false, none, st⟩ := by
  unfold runClean
  rw [hf]
  simp only []
  split
  · rfl
  · rw [hp]

/-- Witness for C8 at a five-byte malformed file. -/
theorem c8_malformed_aborts_witness :
    (SysState.mk (some (DiskFile.mk 5 none)) none).file = some (DiskFile.mk 5 none)
    ∧ (DiskFile.mk 5 none).parsed = none
    ∧ runClean false true (SysState.mk (some (DiskFile.mk 5 none)) none)
        = ⟨false, none, SysState.mk (some (DiskFile.mk 5 none)) none⟩ :=
  ⟨rfl, rfl,
   c8_malformed_aborts false true (SysState.mk (some (DiskFile.mk 5 none)) none)
     (DiskFile.mk 5 none) rfl rfl⟩

/-- C9: when the file is below 100 KiB and the run is real, the prompt is
consulted: a declined confirmation makes the run a clean no-op that fails
without touching either path, while an accepted confirmation on a parseable
file proceeds to a successful run. -/
theorem c9_small_file_prompt (st : SysState) (f : DiskFile)
    (hf : st.file = some f) (hsize : f.size < 1024 * 100) :
    runClean false false st = ⟨false, none, st⟩
    ∧ ∀ dta, f.parsed = some dta → (runClean false true st).ok = true := by
  constructor
  · unfold runClean
    rw [hf]
    simp only []
    rw [if_pos ⟨hsize, trivial, trivial⟩]
  · intro dta hd
    unfold runClean
    rw [hf]
    simp only []
    rw [if_neg (fun hcon => by cases hcon.2.2)]
    rw [hd]
    rfl

/-- Witness for C9 at a 50-byte file holding an empty document. -/
theorem c9_small_file_prompt_witness :
    (SysState.mk (some (DiskFile.mk 50 (some (Json.obj [])))) none).file
        = some (DiskFile.mk 50 (some (Json.obj [])))
    ∧ (DiskFile.mk 50 (some (Json.obj []))).size < 1024 * 100
    ∧ runClean false false (SysState.mk (some (DiskFile.mk 50 (some (Json.obj [])))) none)
        = ⟨false, none, SysState.mk (some (DiskFile.mk 50 (some (Json.obj [])))) none⟩
    ∧ (runClean false true
        (SysState.mk (some (DiskFile.mk 50 (some (Json.obj [])))) none)).ok = true := by
  have h := c9_small_file_prompt
    (SysState.mk (some (DiskFile.mk 50 (some (Json.obj [])))) none)
    (DiskFile.mk 50 (some (Json.obj []))) rfl (by decide)
  exact ⟨rfl, by decide, h.1, h.2 (Json.obj []) rfl⟩

/-- C5: the real-run transform is a fixed point under iteration: applying
it to its own output changes nothing and produces a report with all three
counters zero. -/
theorem c5_idempotent_fixed_point (d : List (String × Json)) :
    cleanDoc false (cleanDoc false d).1 = ((cleanDoc false d).1, ⟨0, 0, 0⟩) := by
  have htop := cleanDoc_top_inert d
  cases hp : objGet d "projects" with
  | none =>
    have hp1 := cleanDoc_projects_none hp
    obtain ⟨d1, hd1⟩ : ∃ d1, (cleanDoc false d).1 = d1 := ⟨_, rfl⟩
    rw [hd1] at htop hp1 ⊢
    simp only [cleanDoc, hp1]
    rw [topFold_id _ _ _ _ _ htop]
  | some v =>
    cases v with
    | obj projs =>
      have hp1 : objGet (cleanDoc false d).1 "projects"
          = some (Json.obj ((projs.map (cleanEntry false)).map (fun e => e.1))) :=
        cleanDoc_projects hp
      have hka := cleanDoc_keyAll_projects hp
      have hent : ∀ e ∈ (projs.map (cleanEntry false)).map (fun e => e.1),
          cleanEntry false e = (e, 0, 0) := by
        intro e he
        obtain ⟨r, hr, rfl⟩ := List.mem_map.mp he
        obtain ⟨kv, hkv, rfl⟩ := List.mem_map.mp hr
        exact cleanEntry_idem kv
      obtain ⟨P1, hP1⟩ : ∃ P1, (projs.map (cleanEntry false)).map (fun e => e.1) = P1 :=
        ⟨_, rfl⟩
      rw [hP1] at hp1 hka hent
      obtain ⟨d1, hd1⟩ : ∃ d1, (cleanDoc false d).1 = d1 := ⟨_, rfl⟩
      rw [hd1] at htop hp1 hka ⊢
      have hmap : P1.map (cleanEntry false) = P1.map (fun e => (e, 0, 0)) :=
        List.map_congr_left hent
      simp only [cleanDoc, hp1, Bool.false_eq_true, if_false]
      rw [hmap]
      simp only [List.map_map]
      rw [show ((fun x : (String × Json) × Nat × Nat => x.1)
            ∘ fun e : String × Json => (e, (0 : Nat), (0 : Nat))) = (fun e => e) from rfl]
      rw [show ((fun x : (String × Json) × Nat × Nat => x.2.1)
            ∘ fun e : String × Json => (e, (0 : Nat), (0 : Nat))) = (fun _ => (0 : Nat)) from rfl]
      rw [show ((fun x : (String × Json) × Nat × Nat => x.2.2)
            ∘ fun e : String × Json => (e, (0 : Nat), (0 : Nat))) = (fun _ => (0 : Nat)) from rfl]
      rw [List.map_id']
      have hz : (P1.map (fun _ => (0 : Nat))).sum = 0 := by simp
      rw [hz]
      rw [objSet_eq_self_of_keyAll hka]
      rw [topFold_id _ _ _ _ _ htop]
    | null =>
      have hp1 := cleanDoc_projects_nonobj hp (fun fs he => nomatch he)
      obtain ⟨d1, hd1⟩ : ∃ d1, (cleanDoc false d).1 = d1 := ⟨_, rfl⟩
      rw [hd1] at htop hp1 ⊢
      simp only [cleanDoc, hp1]
      rw [topFold_id _ _ _ _ _ htop]
    | bool b =>
      have hp1 := cleanDoc_projects_nonobj hp (fun fs he => nomatch he)
      obtain ⟨d1, hd1⟩ : ∃ d1, (cleanDoc false d).1 = d1 := ⟨_, rfl⟩
      rw [hd1] at htop hp1 ⊢
      simp only [cleanDoc, hp1]
      rw [topFold_id _ _ _ _ _ htop]
    | num n =>
      have hp1 := cleanDoc_projects_nonobj hp (fun fs he => nomatch he)
      obtain ⟨d1, hd1⟩ : ∃ d1, (cleanDoc false d).1 = d1 := ⟨_, rfl⟩
      rw [hd1] at htop hp1 ⊢
      simp only [cleanDoc, hp1]
      rw [topFold_id _ _ _ _ _ htop]
    | str s =>
      have hp1 := cleanDoc_projects_nonobj hp (fun fs he => nomatch he)
      obtain ⟨d1, hd1⟩ : ∃ d1, (cleanDoc false d).1 = d1 := ⟨_, rfl⟩
      rw [hd1] at htop hp1 ⊢
      simp only [cleanDoc, hp1]
      rw [topFold_id _ _ _ _ _ htop]
    | arr xs =>
      have hp1 := cleanDoc_projects_nonobj hp (fun fs he => nomatch he)
      obtain ⟨d1, hd1⟩ : ∃ d1, (cleanDoc false d).1 = d1 := ⟨_, rfl⟩
      rw [hd1] at htop hp1 ⊢
      simp only [cleanDoc, hp1]
      rw [topFold_id _ _ _ _ _ htop]
